import Mathlib

/-!
Verification development for the pixel-buffer transforms of the repository:
color inversion (`invert_colors`, src/wasm/test1), K-Means color quantization
(`quantize`, src/wasm/test2), and grayscale-blur-then-Sobel edge detection
(`edge_detection`, src/wasm/test3).

Modelling conventions, used throughout:
* A pixel buffer is a `List ℕ` of bytes (RGBA order, row-major); in-bounds byte
  reads of the source are rendered as `List.getD _ _ 0`.
* `f64` arithmetic of the source is modelled by exact rational arithmetic (`ℚ`).
  Everywhere the source compares square roots of rationals (`euclidean_distance`
  values against each other, against the threshold `1.0`, or against the
  initial accumulators `-1.0` / `f64::INFINITY`), the strict monotonicity of
  the square root on nonnegatives means comparing the squared distances gives
  the same branches, so the model works with squared distances throughout and
  stays exact and decidable.
* Imperative loops that fill a freshly zero-initialised output buffer are
  rendered as `List.map` over `List.range`, the mapped function computing the
  byte the loop writes at each index (`0` where the loop never writes).
-/

/-- Rust `f64::round`: round half away from zero. All values rounded in this
development are nonnegative, but the negative case is kept for faithfulness. -/
def rround (q : ℚ) : ℤ :=
  if 0 ≤ q then ⌊q + 1/2⌋ else ⌈q - 1/2⌉

/-- Rust `as u8` saturating cast from an integer: clamp into `[0, 255]`. -/
def toU8 (z : ℤ) : ℕ :=
  (max 0 (min 255 z)).toNat

/-- `round(sqrt n)` for a natural number `n`, i.e. the nearest integer to `√n`
(`s + 1` exactly when `n ≥ (s + 1/2)² = s² + s + 1/4`, with `s = ⌊√n⌋`).
This models the source's `(n as f64).sqrt().round()` exactly: `f64` square
roots are correctly rounded, and for the magnitudes occurring here
(`n ≤ 2·(16·255)² < 2³⁶`) the distance from `√n` to the nearest half-integer
is far larger than one f64 ulp, so the rounded result agrees. -/
def round_sqrt (n : ℕ) : ℕ :=
  if Nat.sqrt n * Nat.sqrt n + Nat.sqrt n + 1 ≤ n then Nat.sqrt n + 1 else Nat.sqrt n

/-! ## test1: `invert_colors` (src/wasm/test1/wasm-src-test1/src/lib.rs)

The source iterates over the buffer in 4-byte RGBA groups, replacing each of
R, G, B by `255 - value` and leaving alpha untouched.  A trailing group of
3 bytes is still inverted (the alpha slot is never read); a trailing group of
1 or 2 bytes makes the source panic on an out-of-bounds read, so the model's
identity behaviour there is excluded by the length hypothesis of the theorems. -/

def invert_colors : List ℕ → List ℕ
  | r :: g :: b :: a :: rest => (255 - r) :: (255 - g) :: (255 - b) :: a :: invert_colors rest
  | [r, g, b] => [255 - r, 255 - g, 255 - b]
  | l => l

/-! ## test2: `quantize` (src/wasm/test2/wasm-src-test2/src/lib.rs)

Color points are triples of rationals.  `euclidean_distance` of the source is
represented by its square `distSq` (see the header note on square roots). -/

/-- A 3-channel color point, as extracted from an RGBA buffer. -/
abbrev Pt : Type := ℚ × ℚ × ℚ

/-- Squared Euclidean distance in color space (the square of the source's
`euclidean_distance`). -/
def distSq (p q : Pt) : ℚ :=
  (p.1 - q.1) * (p.1 - q.1) + (p.2.1 - q.2.1) * (p.2.1 - q.2.1)
    + (p.2.2 - q.2.2) * (p.2.2 - q.2.2)

/-- The pixel-extraction loop of `quantize`: one RGB point per 4-byte group,
alpha dropped. -/
def extract_pixels (data : List ℕ) : List Pt :=
  (List.range (data.length / 4)).map fun i =>
    ((data.getD (4 * i) 0 : ℚ), (data.getD (4 * i + 1) 0 : ℚ), (data.getD (4 * i + 2) 0 : ℚ))

/-- `deterministic_sample`: picks `sample_size` evenly spaced pixels, index
`floor(i * (len / sample_size))` for each `i`. -/
def deterministic_sample (pixels : List Pt) (sample_size : ℕ) : List Pt :=
  (List.range sample_size).map fun i : ℕ =>
    pixels.getD (⌊((i : ℚ) * (pixels.length : ℚ)) / (sample_size : ℚ)⌋).toNat default

/-- The inner loop of `initialize_centroids_deterministic`: minimum (squared)
distance from `p` to any existing centroid.  The source seeds the minimum with
`f64::INFINITY`; at every call site the centroid list is nonempty, so seeding
the fold with the head's distance computes the same value. -/
def min_dist_sq (p : Pt) : List Pt → ℚ
  | [] => 0
  | c :: cs => cs.foldl (fun m c2 => if distSq p c2 < m then distSq p c2 else m) (distSq p c)

/-- `(0..n).step_by(rate)` for `rate ≥ 1`: the `⌈n / rate⌉` indices
`0, rate, 2·rate, …` below `n`. -/
def strided_indices (n rate : ℕ) : List ℕ :=
  (List.range ((n + rate - 1) / rate)).map (· * rate)

/-- One round of the farthest-point scan of `initialize_centroids_deterministic`:
over the strided indices, track the pixel whose minimum distance to the
existing centroids is maximal (`max_min_dist` starts at `-1.0`,
`best_pixel_idx` at `0`; update on strict `>`). -/
def farthest_point_idx (pixels cs : List Pt) (idxs : List ℕ) : ℕ :=
  (idxs.foldl
    (fun acc i =>
      let md := min_dist_sq (pixels.getD i default) cs
      if acc.1 < md then (md, i) else acc)
    ((-1 : ℚ), 0)).2

/-- `initialize_centroids_deterministic`: empty input gives no centroids;
otherwise the pixel at the quarter position, then `k - 1` farthest-point
rounds over a stride of `max 1 (len / 1000)`.  (Note the first centroid is
pushed before the `for _ in 1..k` loop, so `k = 0` still yields one centroid.) -/
def initialize_centroids_deterministic (pixels : List Pt) (k : ℕ) : List Pt :=
  if pixels.isEmpty then []
  else
    let sample_rate := max 1 (pixels.length / 1000)
    let idxs := strided_indices pixels.length sample_rate
    (List.range (k - 1)).foldl
      (fun cs _ => cs ++ [pixels.getD (farthest_point_idx pixels cs idxs) default])
      [pixels.getD (pixels.length / 4) default]

/-- The loop of `find_nearest_centroid`, with the running index `i`, the
running minimum `best` (`none` = the initial `f64::INFINITY`) and the current
`nearest`.  Strict `<` means the lowest index wins ties. -/
def find_nearest_centroid_aux (p : Pt) : List Pt → ℕ → Option ℚ → ℕ → ℕ
  | [], _, _, nearest => nearest
  | c :: cs, i, best, nearest =>
    match best with
    | none => find_nearest_centroid_aux p cs (i + 1) (some (distSq p c)) i
    | some m =>
      if distSq p c < m then find_nearest_centroid_aux p cs (i + 1) (some (distSq p c)) i
      else find_nearest_centroid_aux p cs (i + 1) (some m) nearest

/-- `find_nearest_centroid`: index of the nearest centroid (`0` for an empty
centroid list, as in the source). -/
def find_nearest_centroid (p : Pt) (cs : List Pt) : ℕ :=
  find_nearest_centroid_aux p cs 0 none 0

/-- `calculate_mean`: per-channel arithmetic mean of a cluster. -/
def calculate_mean (cluster : List Pt) : Pt :=
  let len : ℚ := cluster.length
  let sum := cluster.foldl
    (fun acc q => (acc.1 + q.1, acc.2.1 + q.2.1, acc.2.2 + q.2.2)) ((0 : ℚ), (0 : ℚ), (0 : ℚ))
  (sum.1 / len, sum.2.1 / len, sum.2.2 / len)

/-- The cluster with id `i` built by one refinement iteration: the source
pushes each sample point onto `clusters[nearest]` in scan order, which for
each id is exactly the subsequence of sample points whose nearest centroid has
that id. -/
def kmeans_cluster (sample cs : List Pt) (i : ℕ) : List Pt :=
  sample.filter fun p => find_nearest_centroid p cs == i

/-- One refinement iteration of `quantize`: `clusters` has length `k`
(`vec![Vec::new(); k]`), and the enumerate-map producing `new_centroids` is a
map over the ids `0, …, k-1`: the mean of cluster `i`, or the old
`centroids[i]` when cluster `i` is empty. -/
def kmeans_step (sample cs : List Pt) (k : ℕ) : List Pt :=
  (List.range k).map fun i =>
    let cluster := kmeans_cluster sample cs i
    if cluster.isEmpty then cs.getD i default else calculate_mean cluster

/-- `centroids_converged`: no old/new pair is farther apart than the threshold
(the source compares `euclidean_distance > 1.0`; squared, `distSq > 1`). -/
def centroids_converged (old new_cs : List Pt) (threshold_sq : ℚ) : Bool :=
  (old.zip new_cs).all fun pr => !(threshold_sq < distSq pr.1 pr.2)

/-- The `for _ in 0..max_iterations` loop of `quantize`, `fuel` iterations
remaining: the source computes `new_centroids`, breaks *before* adopting them
when converged, and otherwise continues with them. -/
def kmeans_iterate (sample : List Pt) (k : ℕ) : ℕ → List Pt → List Pt
  | 0, cs => cs
  | fuel + 1, cs =>
    let new_cs := kmeans_step sample cs k
    if centroids_converged cs new_cs 1 then cs
    else kmeans_iterate sample k fuel new_cs

/-- The centroids `quantize` ends up applying: extraction, sampling
(`sample_size = 1000.min(len)`), deterministic initialization, then at most
20 refinement iterations. -/
def final_centroids (data : List ℕ) (k : ℕ) : List Pt :=
  let pixels := extract_pixels data
  let sample := deterministic_sample pixels (min 1000 pixels.length)
  kmeans_iterate sample k 20 (initialize_centroids_deterministic sample k)

/-- `quantize`: recolor every original pixel with its nearest final centroid,
each channel rounded and stored as a `u8`, the alpha byte copied unchanged.
The output-buffer write loop is rendered per byte index: channel `ch = idx % 4`
of pixel `idx / 4`. -/
def quantize (data : List ℕ) (k : ℕ) : List ℕ :=
  let pixels := extract_pixels data
  let cs := final_centroids data k
  (List.range data.length).map fun idx =>
    if idx % 4 = 3 then data.getD idx 0
    else
      let p := pixels.getD (idx / 4) default
      let c := cs.getD (find_nearest_centroid p cs) default
      if idx % 4 = 0 then toU8 (rround c.1)
      else if idx % 4 = 1 then toU8 (rround c.2.1)
      else toU8 (rround c.2.2)

/-- The RGB triples of the first `n` pixels of a buffer (alpha ignored). -/
def output_triples (out : List ℕ) (n : ℕ) : List (ℕ × ℕ × ℕ) :=
  (List.range n).map fun i =>
    (out.getD (4 * i) 0, out.getD (4 * i + 1) 0, out.getD (4 * i + 2) 0)

/-- The index of the final centroid chosen for pixel `i` by the recoloring
loop of `quantize`. -/
def recolor_index (data : List ℕ) (k i : ℕ) : ℕ :=
  find_nearest_centroid ((extract_pixels data).getD i default) (final_centroids data k)

/-- The number of non-empty clusters of the recoloring step: how many final
centroids are nearest to at least one original pixel. -/
def non_empty_cluster_count (data : List ℕ) (k : ℕ) : ℕ :=
  ((List.range (data.length / 4)).map fun i => recolor_index data k i).toFinset.card

/-! ## test3: `blur` and `edge_detection` (src/wasm/test3/wasm-src-test3/src/lib.rs) -/

/-- The grayscale conversion inside `blur`: `round((r + g + b) / 3)` of the
pixel whose R byte sits at `idx`. -/
def gray_of (data : List ℕ) (idx : ℕ) : ℤ :=
  rround (((data.getD idx 0 : ℚ) + (data.getD (idx + 1) 0 : ℚ) + (data.getD (idx + 2) 0 : ℚ)) / 3)

/-- The common 3×3 convolution loop of `blur` and `edge_detection`: sum of
`f(x + kx - 1, y + ky - 1) * kernel[ky][kx]` over the window. -/
def convolve3 (f : ℕ → ℕ → ℤ) (ker : List (List ℤ)) (x y : ℕ) : ℤ :=
  ((List.range 3).map fun ky =>
    ((List.range 3).map fun kx =>
      f (x + kx - 1) (y + ky - 1) * ((ker.getD ky []).getD kx 0)).sum).sum

def gauss_kernel : List (List ℤ) := [[1, 2, 1], [2, 4, 2], [1, 2, 1]]

def sobel_x : List (List ℤ) := [[-1, 0, 1], [-2, 0, 2], [-1, 0, 1]]

def sobel_y : List (List ℤ) := [[-1, -2, -1], [0, 0, 0], [1, 2, 1]]

/-- `blur`: output zero-initialised (`vec![0u8; data.len()]`); for interior
pixels only (`1 ≤ x < w-1`, `1 ≤ y < h-1`) the grayscale 3×3 Gaussian average
`round(acc / 16)` is written to R, G, B and `255` to alpha; the 1-pixel border
keeps the zeros — including its alpha byte. -/
def blur (data : List ℕ) (w h : ℕ) : List ℕ :=
  (List.range data.length).map fun idx =>
    let p := idx / 4
    let x := p % w
    let y := p / w
    if 1 ≤ x ∧ x < w - 1 ∧ 1 ≤ y ∧ y < h - 1 then
      if idx % 4 = 3 then 255
      else
        toU8 (rround ((convolve3 (fun a b => gray_of data ((b * w + a) * 4)) gauss_kernel x y : ℚ) / 16))
    else 0

/-- The Sobel gradient magnitude at `(x, y)` for a grayscale reading `g`:
`round(sqrt(gx² + gy²))` clamped by `.min(255.0)`. -/
def edge_magnitude (g : ℕ → ℕ → ℤ) (x y : ℕ) : ℕ :=
  let gx := convolve3 g sobel_x x y
  let gy := convolve3 g sobel_y x y
  min (round_sqrt (gx * gx + gy * gy).toNat) 255

/-- Reading the blurred buffer as grayscale: `edge_detection` reads only the
R byte (`data[idx]`, "already grayscale from blur"). -/
def blurred_gray (bdata : List ℕ) (w : ℕ) (x y : ℕ) : ℤ :=
  (bdata.getD ((y * w + x) * 4) 0 : ℤ)

/-- `edge_detection`: blur first, then for interior pixels write
`255` if the Sobel magnitude exceeds the threshold `170` and `0` otherwise
to R, G, B, and `255` to alpha; the 1-pixel border keeps the zeros of the
freshly allocated output — including its alpha byte. -/
def edge_detection (data : List ℕ) (w h : ℕ) : List ℕ :=
  let bdata := blur data w h
  (List.range bdata.length).map fun idx =>
    let p := idx / 4
    let x := p % w
    let y := p / w
    if 1 ≤ x ∧ x < w - 1 ∧ 1 ≤ y ∧ y < h - 1 then
      if idx % 4 = 3 then 255
      else if 170 < edge_magnitude (blurred_gray bdata w) x y then 255 else 0
    else 0

/-- Modelled from the spec: the continuous-magnitude edge-detection mode of
§4.6/§6, which the source does not implement (the source's `edge_detection`
takes no mode argument).  Per the spec's words: no separate blur stage, direct
grayscale via the unweighted RGB mean, 3×3 Sobel magnitude emitted as the
continuous value, the original alpha byte preserved, the 1-pixel border
zeroed. -/
def edge_detect_continuous (data : List ℕ) (w h : ℕ) : List ℕ :=
  (List.range data.length).map fun idx =>
    let p := idx / 4
    let x := p % w
    let y := p / w
    if 1 ≤ x ∧ x < w - 1 ∧ 1 ≤ y ∧ y < h - 1 then
      if idx % 4 = 3 then data.getD idx 0
      else edge_magnitude (fun a b => gray_of data ((b * w + a) * 4)) x y
    else 0

/-- A `w × h` single-color RGBA test image: every pixel `(v, v, v, a)`. -/
def uniform_image (w h v a : ℕ) : List ℕ :=
  (List.range (w * h * 4)).map fun idx => if idx % 4 = 3 then a else v

/-! ## Theorems -/

theorem rround_natCast (n : ℕ) : rround (n : ℚ) = n := by
  unfold rround
  rw [if_pos (by positivity), Int.floor_eq_iff]
  constructor <;> push_cast <;> linarith

theorem toU8_natCast (n : ℕ) (h : n ≤ 255) : toU8 (n : ℤ) = n := by
  unfold toU8
  omega

/-- C9: Inversion is an involution: for every RGBA buffer (4-byte groups of
bytes ≤ 255), `invert(invert(X)) == X` byte-for-byte. -/
theorem invert_colors_involution :
    ∀ data : List ℕ, data.length % 4 = 0 → (∀ b ∈ data, b ≤ 255) →
      invert_colors (invert_colors data) = data
  | [], _, _ => rfl
  | [r], hlen, _ => by simp at hlen
  | [r, g], hlen, _ => by simp at hlen
  | [r, g, b], hlen, _ => by simp at hlen
  | r :: g :: b :: a :: rest, hlen, hbytes => by
    have hr : 255 - (255 - r) = r := by have := hbytes r (by simp); omega
    have hg : 255 - (255 - g) = g := by have := hbytes g (by simp); omega
    have hb : 255 - (255 - b) = b := by have := hbytes b (by simp); omega
    have ih : invert_colors (invert_colors rest) = rest := by
      apply invert_colors_involution rest
      · simp at hlen ⊢; omega
      · intro x hx; exact hbytes x (by simp [hx])
    simp only [invert_colors, hr, hg, hb, ih]

/-- Witness for C9 at a concrete buffer. -/
theorem invert_colors_involution_witness :
    invert_colors (invert_colors [1, 2, 3, 4]) = [1, 2, 3, 4] :=
  invert_colors_involution [1, 2, 3, 4] (by decide) (by decide)

/-! ### Indexing helpers for the range-map rendering of the output loops -/

theorem getD_range_map {α : Type} (f : ℕ → α) {n i : ℕ} {d : α} (h : i < n) :
    ((List.range n).map f).getD i d = f i := by
  have h1 : i < ((List.range n).map f).length := by simpa using h
  rw [List.getD_eq_getElem?_getD, List.getElem?_eq_getElem h1]
  simp

theorem rowmajor_mod {w : ℕ} (x y : ℕ) (hx : x < w) : (y * w + x) % w = x := by
  rw [Nat.add_comm, Nat.add_mul_mod_self_right, Nat.mod_eq_of_lt hx]

theorem rowmajor_div {w : ℕ} (x y : ℕ) (hx : x < w) : (y * w + x) / w = y := by
  rw [Nat.add_comm, Nat.add_mul_div_right _ _ (by omega : 0 < w), Nat.div_eq_of_lt hx]
  omega

theorem rowmajor_lt {w h : ℕ} (x y : ℕ) (hx : x < w) (hy : y < h) :
    y * w + x < w * h := by
  calc y * w + x < (y + 1) * w := by rw [Nat.add_mul]; omega
  _ ≤ h * w := Nat.mul_le_mul_right _ (by omega)
  _ = w * h := Nat.mul_comm _ _

/-! ### `blur` and `edge_detection`: byte-level description -/

theorem blur_length (data : List ℕ) (w h : ℕ) : (blur data w h).length = data.length := by
  simp [blur]

/-- Bytes of `blur` on the 1-pixel border (and their alpha) stay `0`. -/
theorem blur_getD_border (data : List ℕ) (w h x y c : ℕ)
    (hlen : data.length = w * h * 4) (hx : x < w) (hy : y < h) (hc : c < 4)
    (hb : x = 0 ∨ x = w - 1 ∨ y = 0 ∨ y = h - 1) :
    (blur data w h).getD ((y * w + x) * 4 + c) 0 = 0 := by
  have hidx : (y * w + x) * 4 + c < data.length := by
    have := rowmajor_lt x y hx hy; omega
  have hd : ((y * w + x) * 4 + c) / 4 = y * w + x := by omega
  simp only [blur]
  rw [getD_range_map _ hidx, hd, rowmajor_mod x y hx, rowmajor_div x y hx,
    if_neg (by omega)]

/-- Bytes of `blur` at an interior pixel: the Gaussian average on R, G, B. -/
theorem blur_getD_interior (data : List ℕ) (w h x y c : ℕ)
    (hlen : data.length = w * h * 4) (hx1 : 1 ≤ x) (hx2 : x < w - 1)
    (hy1 : 1 ≤ y) (hy2 : y < h - 1) (hc : c < 3) :
    (blur data w h).getD ((y * w + x) * 4 + c) 0 =
      toU8 (rround ((convolve3 (fun a b => gray_of data ((b * w + a) * 4)) gauss_kernel x y : ℚ) / 16)) := by
  have hx : x < w := by omega
  have hy : y < h := by omega
  have hidx : (y * w + x) * 4 + c < data.length := by
    have := rowmajor_lt x y hx hy; omega
  have hd : ((y * w + x) * 4 + c) / 4 = y * w + x := by omega
  have hm : ((y * w + x) * 4 + c) % 4 = c := by omega
  simp only [blur]
  rw [getD_range_map _ hidx, hd, hm, rowmajor_mod x y hx, rowmajor_div x y hx,
    if_pos (by omega), if_neg (by omega)]

/-- Alpha byte of `blur` at an interior pixel is forced to `255`. -/
theorem blur_getD_interior_alpha (data : List ℕ) (w h x y : ℕ)
    (hlen : data.length = w * h * 4) (hx1 : 1 ≤ x) (hx2 : x < w - 1)
    (hy1 : 1 ≤ y) (hy2 : y < h - 1) :
    (blur data w h).getD ((y * w + x) * 4 + 3) 0 = 255 := by
  have hx : x < w := by omega
  have hy : y < h := by omega
  have hidx : (y * w + x) * 4 + 3 < data.length := by
    have := rowmajor_lt x y hx hy; omega
  have hd : ((y * w + x) * 4 + 3) / 4 = y * w + x := by omega
  have hm : ((y * w + x) * 4 + 3) % 4 = 3 := by omega
  simp only [blur]
  rw [getD_range_map _ hidx, hd, hm, rowmajor_mod x y hx, rowmajor_div x y hx,
    if_pos (by omega), if_pos rfl]

/-- Bytes of `edge_detection` at an interior pixel: the thresholded magnitude
on R, G, B. -/
theorem edge_detection_getD_interior (data : List ℕ) (w h x y c : ℕ)
    (hlen : data.length = w * h * 4) (hx1 : 1 ≤ x) (hx2 : x < w - 1)
    (hy1 : 1 ≤ y) (hy2 : y < h - 1) (hc : c < 3) :
    (edge_detection data w h).getD ((y * w + x) * 4 + c) 0 =
      if 170 < edge_magnitude (blurred_gray (blur data w h) w) x y then 255 else 0 := by
  have hx : x < w := by omega
  have hy : y < h := by omega
  have hidx : (y * w + x) * 4 + c < (blur data w h).length := by
    rw [blur_length]
    have := rowmajor_lt x y hx hy; omega
  have hd : ((y * w + x) * 4 + c) / 4 = y * w + x := by omega
  have hm : ((y * w + x) * 4 + c) % 4 = c := by omega
  simp only [edge_detection]
  rw [getD_range_map _ hidx, hd, hm, rowmajor_mod x y hx, rowmajor_div x y hx,
    if_pos (by omega), if_neg (by omega)]

/-- C10 (implicit): for dimensioned input, every byte of `edge_detection`'s
output on the outermost 1-pixel border is `0` — the alpha byte included, so
border pixels come out fully transparent black, not copies of the input. -/
theorem edge_detection_border_zero (data : List ℕ) (w h x y c : ℕ)
    (hlen : data.length = w * h * 4) (hx : x < w) (hy : y < h) (hc : c < 4)
    (hb : x = 0 ∨ x = w - 1 ∨ y = 0 ∨ y = h - 1) :
    (edge_detection data w h).getD ((y * w + x) * 4 + c) 0 = 0 := by
  have hidx : (y * w + x) * 4 + c < (blur data w h).length := by
    rw [blur_length]
    have := rowmajor_lt x y hx hy; omega
  have hd : ((y * w + x) * 4 + c) / 4 = y * w + x := by omega
  simp only [edge_detection]
  rw [getD_range_map _ hidx, hd, rowmajor_mod x y hx, rowmajor_div x y hx,
    if_neg (by omega)]

/-- Witness for C10: the top-left alpha byte of a 5×5 run is `0`. -/
theorem edge_detection_border_zero_witness :
    (edge_detection (uniform_image 5 5 128 255) 5 5).getD ((0 * 5 + 0) * 4 + 3) 0 = 0 :=
  edge_detection_border_zero (uniform_image 5 5 128 255) 5 5 0 0 3
    (by decide) (by decide) (by decide) (by decide) (by decide)

/-- C4 (amended): the transforms perform no input validation: when width or
height is smaller than 3 the interior loops are empty and `edge_detection`
returns the untouched all-zero output buffer (fully transparent black) of the
input's length — a normal return, not an error. -/
theorem edge_detection_small_dims_all_zero (data : List ℕ) (w h : ℕ)
    (hwh : w < 3 ∨ h < 3) :
    edge_detection data w h = List.replicate data.length 0 := by
  simp only [edge_detection, blur_length]
  have : ∀ idx ∈ List.range data.length,
      (fun idx =>
        let p := idx / 4
        let x := p % w
        let y := p / w
        if 1 ≤ x ∧ x < w - 1 ∧ 1 ≤ y ∧ y < h - 1 then
          if idx % 4 = 3 then 255
          else if 170 < edge_magnitude (blurred_gray (blur data w h) w) x y then 255 else 0
        else 0) idx = (fun _ => (0 : ℕ)) idx := by
    intro idx _
    simp only
    rw [if_neg (by omega)]
  rw [List.map_congr_left this, List.map_const', List.length_range]

/-- Counterexample for C4: a malformed 2×2 input (below the 3×3 minimum) is
not rejected: `edge_detection` silently returns the all-zero, all-transparent
16-byte buffer instead of failing with an error. -/
theorem edge_detection_malformed_counterexample :
    edge_detection (uniform_image 2 2 100 200) 2 2 = List.replicate 16 0 := by
  decide

/-- Witness for C4's amended statement at a concrete malformed input. -/
theorem edge_detection_small_dims_all_zero_witness :
    edge_detection (uniform_image 2 3 10 20) 2 3 =
      List.replicate (uniform_image 2 3 10 20).length 0 :=
  edge_detection_small_dims_all_zero (uniform_image 2 3 10 20) 2 3 (by decide)

/-! ### Uniform images through `blur` and the Sobel stage -/

theorem uniform_image_length (w h v a : ℕ) : (uniform_image w h v a).length = w * h * 4 := by
  simp [uniform_image]

/-- Unfolding a 3×3 convolution into its nine explicit terms. -/
theorem convolve3_eval (f : ℕ → ℕ → ℤ) (k00 k01 k02 k10 k11 k12 k20 k21 k22 : ℤ) (x y : ℕ) :
    convolve3 f [[k00, k01, k02], [k10, k11, k12], [k20, k21, k22]] x y =
      f (x - 1) (y - 1) * k00 + f x (y - 1) * k01 + f (x + 1) (y - 1) * k02
      + f (x - 1) y * k10 + f x y * k11 + f (x + 1) y * k12
      + f (x - 1) (y + 1) * k20 + f x (y + 1) * k21 + f (x + 1) (y + 1) * k22 := by
  simp [convolve3, List.range_succ]
  ring

/-- The grayscale reading of a uniform image is its color value everywhere. -/
theorem gray_of_uniform (w h v a x y : ℕ) (hx : x < w) (hy : y < h) :
    gray_of (uniform_image w h v a) ((y * w + x) * 4) = v := by
  have hlt := rowmajor_lt x y hx hy
  have h0 : (uniform_image w h v a).getD ((y * w + x) * 4) 0 = v := by
    simp only [uniform_image]
    rw [getD_range_map _ (by omega), if_neg (by omega)]
  have h1 : (uniform_image w h v a).getD ((y * w + x) * 4 + 1) 0 = v := by
    simp only [uniform_image]
    rw [getD_range_map _ (by omega), if_neg (by omega)]
  have h2 : (uniform_image w h v a).getD ((y * w + x) * 4 + 2) 0 = v := by
    simp only [uniform_image]
    rw [getD_range_map _ (by omega), if_neg (by omega)]
  unfold gray_of
  rw [h0, h1, h2]
  have h3 : ((v : ℚ) + v + v) / 3 = (v : ℚ) := by ring
  rw [h3, rround_natCast]

/-- The blurred grayscale value of a uniform image at an interior pixel is the
color value itself: `round((v+v+v)/3) = v` and `round(16·v / 16) = v`. -/
theorem blurred_gray_uniform (w h v a x y : ℕ) (hv : v ≤ 255)
    (hx1 : 1 ≤ x) (hx2 : x < w - 1) (hy1 : 1 ≤ y) (hy2 : y < h - 1) :
    blurred_gray (blur (uniform_image w h v a) w h) w x y = (v : ℤ) := by
  unfold blurred_gray
  have hb : (blur (uniform_image w h v a) w h).getD ((y * w + x) * 4) 0 = v := by
    have := blur_getD_interior (uniform_image w h v a) w h x y 0
      (uniform_image_length w h v a) hx1 hx2 hy1 hy2 (by omega)
    rw [show (y * w + x) * 4 + 0 = (y * w + x) * 4 by omega] at this
    rw [this, gauss_kernel, convolve3_eval]
    rw [gray_of_uniform w h v a (x - 1) (y - 1) (by omega) (by omega),
      gray_of_uniform w h v a x (y - 1) (by omega) (by omega),
      gray_of_uniform w h v a (x + 1) (y - 1) (by omega) (by omega),
      gray_of_uniform w h v a (x - 1) y (by omega) (by omega),
      gray_of_uniform w h v a x y (by omega) (by omega),
      gray_of_uniform w h v a (x + 1) y (by omega) (by omega),
      gray_of_uniform w h v a (x - 1) (y + 1) (by omega) (by omega),
      gray_of_uniform w h v a x (y + 1) (by omega) (by omega),
      gray_of_uniform w h v a (x + 1) (y + 1) (by omega) (by omega)]
    have hsum : ((v : ℤ) * 1 + v * 2 + v * 1 + v * 2 + v * 4 + v * 2 + v * 1 + v * 2 + v * 1 : ℤ)
        = 16 * v := by ring
    rw [hsum]
    have hq : ((16 * (v : ℤ) : ℤ) : ℚ) / 16 = (v : ℚ) := by push_cast; ring
    rw [hq, rround_natCast, toU8_natCast v hv]
  rw [hb]

/-- Borders of the blurred buffer read as grayscale value `0`. -/
theorem blurred_gray_border (data : List ℕ) (w h x y : ℕ)
    (hlen : data.length = w * h * 4) (hx : x < w) (hy : y < h)
    (hb : x = 0 ∨ x = w - 1 ∨ y = 0 ∨ y = h - 1) :
    blurred_gray (blur data w h) w x y = 0 := by
  unfold blurred_gray
  have := blur_getD_border data w h x y 0 hlen hx hy (by omega) hb
  rw [show (y * w + x) * 4 + 0 = (y * w + x) * 4 by omega] at this
  rw [this]
  rfl

theorem round_sqrt_zero : round_sqrt 0 = 0 := by
  simp [round_sqrt]

theorem round_sqrt_ge_sqrt (n : ℕ) : Nat.sqrt n ≤ round_sqrt n := by
  unfold round_sqrt
  split <;> omega

/-- Counterexample for C3: on the uniform 5×5 gray-128 image, the *interior*
pixel `(1, 1)` (not on the outermost border) has Sobel magnitude `255 ≠ 0`
(the zeroed border of the blurred buffer registers as a strong edge), and the
corresponding output byte is `255`, not `0`. -/
theorem edge_detection_uniform_counterexample :
    edge_magnitude (blurred_gray (blur (uniform_image 5 5 128 255) 5 5) 5) 1 1 ≠ 0
    ∧ (edge_detection (uniform_image 5 5 128 255) 5 5).getD ((1 * 5 + 1) * 4) 0 = 255 := by
  have hg : ∀ x y : ℕ, x < 5 → y < 5 → (x = 0 ∨ y = 0) →
      blurred_gray (blur (uniform_image 5 5 128 255) 5 5) 5 x y = 0 := by
    intro x y hx hy hb
    exact blurred_gray_border (uniform_image 5 5 128 255) 5 5 x y
      (uniform_image_length 5 5 128 255) hx hy (by omega)
  have hi : ∀ x y : ℕ, 1 ≤ x → x < 4 → 1 ≤ y → y < 4 →
      blurred_gray (blur (uniform_image 5 5 128 255) 5 5) 5 x y = 128 := by
    intro x y hx1 hx2 hy1 hy2
    exact blurred_gray_uniform 5 5 128 255 x y (by omega) hx1 (by omega) hy1 (by omega)
  have hmag : edge_magnitude (blurred_gray (blur (uniform_image 5 5 128 255) 5 5) 5) 1 1 = 255 := by
    unfold edge_magnitude
    rw [sobel_x, sobel_y, convolve3_eval, convolve3_eval]
    rw [hg 0 0 (by omega) (by omega) (by omega), hg 1 0 (by omega) (by omega) (by omega),
      hg 2 0 (by omega) (by omega) (by omega), hg 0 1 (by omega) (by omega) (by omega),
      hg 0 2 (by omega) (by omega) (by omega), hi 1 1 (by omega) (by omega) (by omega) (by omega),
      hi 2 1 (by omega) (by omega) (by omega) (by omega),
      hi 1 2 (by omega) (by omega) (by omega) (by omega),
      hi 2 2 (by omega) (by omega) (by omega) (by omega)]
    have hx384 : ((0 : ℤ) * -1 + 0 * 0 + 0 * 1 + 0 * -2 + 128 * 0 + 128 * 2 + 0 * -1 + 128 * 0
        + 128 * 1 : ℤ) = 384 := by norm_num
    have hy384 : ((0 : ℤ) * -1 + 0 * -2 + 0 * -1 + 0 * 0 + 128 * 0 + 128 * 0 + 0 * 1 + 128 * 2
        + 128 * 1 : ℤ) = 384 := by norm_num
    rw [hx384, hy384]
    show round_sqrt ((384 * 384 + 384 * 384 : ℤ)).toNat ⊓ 255 = 255
    have htn : ((384 * 384 + 384 * 384 : ℤ)).toNat = 294912 := by decide
    rw [htn]
    have h255 : 255 ≤ round_sqrt 294912 := by
      have h1 : 255 ≤ Nat.sqrt 294912 := Nat.le_sqrt.mpr (by norm_num)
      have h2 := round_sqrt_ge_sqrt 294912
      omega
    omega
  refine ⟨by rw [hmag]; omega, ?_⟩
  have := edge_detection_getD_interior (uniform_image 5 5 128 255) 5 5 1 1 0
    (uniform_image_length 5 5 128 255) (by omega) (by omega) (by omega) (by omega) (by omega)
  rw [show (1 * 5 + 1) * 4 + 0 = (1 * 5 + 1) * 4 by omega] at this
  rw [this, hmag, if_pos (by omega)]

/-- C3 (amended): for a uniform image, every pixel at distance at least 2 from
the image border has zero Sobel magnitude and a zero output byte.  (Pixels of
the interior that are *adjacent* to the border see the zeroed border of the
blurred buffer inside their 3×3 window and can register a spurious edge — the
counterexample above.) -/
theorem edge_detection_uniform_inner_interior (w h v a x y : ℕ) (hv : v ≤ 255)
    (hx1 : 2 ≤ x) (hx2 : x + 2 < w) (hy1 : 2 ≤ y) (hy2 : y + 2 < h) :
    edge_magnitude (blurred_gray (blur (uniform_image w h v a) w h) w) x y = 0
    ∧ (edge_detection (uniform_image w h v a) w h).getD ((y * w + x) * 4) 0 = 0 := by
  have hi : ∀ x' y' : ℕ, x - 1 ≤ x' → x' ≤ x + 1 → y - 1 ≤ y' → y' ≤ y + 1 →
      blurred_gray (blur (uniform_image w h v a) w h) w x' y' = (v : ℤ) := by
    intro x' y' h1 h2 h3 h4
    exact blurred_gray_uniform w h v a x' y' hv (by omega) (by omega) (by omega) (by omega)
  have hmag : edge_magnitude (blurred_gray (blur (uniform_image w h v a) w h) w) x y = 0 := by
    unfold edge_magnitude
    rw [sobel_x, sobel_y, convolve3_eval, convolve3_eval]
    rw [hi (x - 1) (y - 1) (by omega) (by omega) (by omega) (by omega),
      hi x (y - 1) (by omega) (by omega) (by omega) (by omega),
      hi (x + 1) (y - 1) (by omega) (by omega) (by omega) (by omega),
      hi (x - 1) y (by omega) (by omega) (by omega) (by omega),
      hi x y (by omega) (by omega) (by omega) (by omega),
      hi (x + 1) y (by omega) (by omega) (by omega) (by omega),
      hi (x - 1) (y + 1) (by omega) (by omega) (by omega) (by omega),
      hi x (y + 1) (by omega) (by omega) (by omega) (by omega),
      hi (x + 1) (y + 1) (by omega) (by omega) (by omega) (by omega)]
    have hzx : ((v : ℤ) * -1 + v * 0 + v * 1 + v * -2 + v * 0 + v * 2 + v * -1 + v * 0 + v * 1 : ℤ)
        = 0 := by ring
    have hzy : ((v : ℤ) * -1 + v * -2 + v * -1 + v * 0 + v * 0 + v * 0 + v * 1 + v * 2 + v * 1 : ℤ)
        = 0 := by ring
    rw [hzx, hzy]
    show round_sqrt ((0 * 0 + 0 * 0 : ℤ)).toNat ⊓ 255 = 0
    have htn : ((0 * 0 + 0 * 0 : ℤ)).toNat = 0 := by decide
    rw [htn, round_sqrt_zero]
    omega
  refine ⟨hmag, ?_⟩
  have := edge_detection_getD_interior (uniform_image w h v a) w h x y 0
    (uniform_image_length w h v a) (by omega) (by omega) (by omega) (by omega) (by omega)
  rw [show (y * w + x) * 4 + 0 = (y * w + x) * 4 by omega] at this
  rw [this, hmag, if_neg (by omega)]

/-- Witness for C3's amended statement: the center pixel `(2, 2)` of the
uniform 5×5 gray image has zero magnitude and a zero output byte. -/
theorem edge_detection_uniform_inner_interior_witness :
    edge_magnitude (blurred_gray (blur (uniform_image 5 5 128 255) 5 5) 5) 2 2 = 0
    ∧ (edge_detection (uniform_image 5 5 128 255) 5 5).getD ((2 * 5 + 2) * 4) 0 = 0 :=
  edge_detection_uniform_inner_interior 5 5 128 255 2 2
    (by decide) (by decide) (by decide) (by decide) (by decide)

/-! ### `find_nearest_centroid`: nearest index, lowest-index tie-break -/

/-- Invariant of the `find_nearest_centroid` loop once the running minimum is
a concrete value `m`: either no remaining centroid beats `m` and the running
`nearest` survives, or the result is the position (offset by the running index
`i`) of the first remaining centroid achieving the strict minimum. -/
theorem find_nearest_aux_spec (p : Pt) :
    ∀ (cs : List Pt) (i : ℕ) (m : ℚ) (nr : ℕ),
      (find_nearest_centroid_aux p cs i (some m) nr = nr
        ∧ ∀ t, t < cs.length → m ≤ distSq p (cs.getD t default))
      ∨ (∃ t, t < cs.length
          ∧ find_nearest_centroid_aux p cs i (some m) nr = i + t
          ∧ distSq p (cs.getD t default) < m
          ∧ (∀ u, u < cs.length → distSq p (cs.getD t default) ≤ distSq p (cs.getD u default))
          ∧ (∀ u, u < t → distSq p (cs.getD t default) < distSq p (cs.getD u default)))
  | [], i, m, nr => Or.inl ⟨rfl, by intro t ht; simp at ht⟩
  | c :: cs, i, m, nr => by
    simp only [find_nearest_centroid_aux]
    by_cases hlt : distSq p c < m
    · rw [if_pos hlt]
      rcases find_nearest_aux_spec p cs (i + 1) (distSq p c) i with
        ⟨heq, hall⟩ | ⟨t, ht, heq, hltm, hmin, hstrict⟩
      · right
        refine ⟨0, by simp, by rw [heq]; omega, by simpa using hlt, ?_, by omega⟩
        intro u hu
        cases u with
        | zero => simp
        | succ u' =>
          simpa using hall u' (by simpa using hu)
      · right
        refine ⟨t + 1, by simpa using ht, by rw [heq]; omega, ?_, ?_, ?_⟩
        · simpa using hltm.trans hlt
        · intro u hu
          cases u with
          | zero => simpa using le_of_lt hltm
          | succ u' => simpa using hmin u' (by simpa using hu)
        · intro u hu
          cases u with
          | zero => simpa using hltm
          | succ u' => simpa using hstrict u' (by omega)
    · rw [if_neg hlt]
      rcases find_nearest_aux_spec p cs (i + 1) m nr with
        ⟨heq, hall⟩ | ⟨t, ht, heq, hltm, hmin, hstrict⟩
      · left
        refine ⟨heq, ?_⟩
        intro t ht
        cases t with
        | zero => simpa using not_lt.mp hlt
        | succ t' => simpa using hall t' (by simpa using ht)
      · right
        refine ⟨t + 1, by simpa using ht, by rw [heq]; omega, by simpa using hltm, ?_, ?_⟩
        · intro u hu
          cases u with
          | zero => simpa using le_of_lt (lt_of_lt_of_le hltm (not_lt.mp hlt))
          | succ u' => simpa using hmin u' (by simpa using hu)
        · intro u hu
          cases u with
          | zero => simpa using lt_of_lt_of_le hltm (not_lt.mp hlt)
          | succ u' => simpa using hstrict u' (by omega)

/-- `find_nearest_centroid` on a nonempty centroid list returns an in-range
index of minimal (squared) distance; every strictly earlier index is strictly
farther (strict `<` comparison: ties go to the lowest index). -/
theorem find_nearest_centroid_spec (p c : Pt) (cs : List Pt) :
    find_nearest_centroid p (c :: cs) < (c :: cs).length
    ∧ (∀ u, u < (c :: cs).length →
        distSq p ((c :: cs).getD (find_nearest_centroid p (c :: cs)) default)
          ≤ distSq p ((c :: cs).getD u default))
    ∧ (∀ u, u < find_nearest_centroid p (c :: cs) →
        distSq p ((c :: cs).getD (find_nearest_centroid p (c :: cs)) default)
          < distSq p ((c :: cs).getD u default)) := by
  have hdef : find_nearest_centroid p (c :: cs)
      = find_nearest_centroid_aux p cs 1 (some (distSq p c)) 0 := rfl
  rcases find_nearest_aux_spec p cs 1 (distSq p c) 0 with
    ⟨heq, hall⟩ | ⟨t, ht, heq, hltm, hmin, hstrict⟩
  · rw [hdef, heq]
    refine ⟨by simp, ?_, by omega⟩
    intro u hu
    cases u with
    | zero => exact le_refl _
    | succ u' => simpa using hall u' (by simpa using hu)
  · rw [hdef, heq]
    have hgt : (c :: cs).getD (1 + t) default = cs.getD t default := by
      rw [Nat.add_comm]; simp
    refine ⟨by simp; omega, ?_, ?_⟩
    · intro u hu
      rw [hgt]
      cases u with
      | zero => simpa using le_of_lt hltm
      | succ u' => simpa using hmin u' (by simpa using hu)
    · intro u hu
      rw [hgt]
      cases u with
      | zero => simpa using hltm
      | succ u' => simpa using hstrict u' (by omega)

theorem find_nearest_lt (p : Pt) (cs : List Pt) (h : cs ≠ []) :
    find_nearest_centroid p cs < cs.length := by
  cases cs with
  | nil => simp at h
  | cons c cs' => exact (find_nearest_centroid_spec p c cs').1

/-- On a two-centroid list, the first centroid wins unless the second is
strictly nearer. -/
theorem find_nearest_two (p c0 c1 : Pt) (h : ¬ distSq p c1 < distSq p c0) :
    find_nearest_centroid p [c0, c1] = 0 := by
  unfold find_nearest_centroid
  simp only [find_nearest_centroid_aux]
  rw [if_neg h]

/-! ### Centroid-count bookkeeping -/

theorem length_foldl_append {α β : Type} (g : List α → β → α) :
    ∀ (l : List β) (start : List α),
      (l.foldl (fun cs x => cs ++ [g cs x]) start).length = start.length + l.length
  | [], start => by simp
  | b :: l, start => by
    simp only [List.foldl_cons]
    rw [length_foldl_append g l (start ++ [g start b])]
    simp
    omega

theorem initialize_centroids_length (pixels : List Pt) (k : ℕ) (h : pixels ≠ []) :
    (initialize_centroids_deterministic pixels k).length = max k 1 := by
  unfold initialize_centroids_deterministic
  rw [if_neg (by simp [List.isEmpty_iff, h])]
  rw [length_foldl_append]
  simp
  omega

theorem kmeans_step_length (sample cs : List Pt) (k : ℕ) :
    (kmeans_step sample cs k).length = k := by
  simp [kmeans_step]

theorem kmeans_iterate_length (sample : List Pt) (k : ℕ) :
    ∀ (fuel : ℕ) (cs : List Pt), cs.length = k → (kmeans_iterate sample k fuel cs).length = k
  | 0, cs, h => h
  | fuel + 1, cs, h => by
    simp only [kmeans_iterate]
    split
    · exact h
    · exact kmeans_iterate_length sample k fuel _ (kmeans_step_length sample cs k)

theorem extract_pixels_length (data : List ℕ) :
    (extract_pixels data).length = data.length / 4 := by
  simp [extract_pixels]

theorem deterministic_sample_length (pixels : List Pt) (s : ℕ) :
    (deterministic_sample pixels s).length = s := by
  unfold deterministic_sample
  rw [List.length_map, List.length_range]

theorem final_centroids_length (data : List ℕ) (k : ℕ) (hk : 1 ≤ k)
    (hn : data.length / 4 ≠ 0) :
    (final_centroids data k).length = k := by
  unfold final_centroids
  have hpix := extract_pixels_length data
  have hs := deterministic_sample_length (extract_pixels data) (min 1000 (extract_pixels data).length)
  have hsne : deterministic_sample (extract_pixels data) (min 1000 (extract_pixels data).length) ≠ [] := by
    have hpos : 0 < (deterministic_sample (extract_pixels data)
        (min 1000 (extract_pixels data).length)).length := by
      rw [hs, hpix]; omega
    exact List.length_pos.mp hpos
  apply kmeans_iterate_length
  rw [initialize_centroids_length _ _ hsne]
  omega

/-! ### The recoloring loop, byte by byte -/

/-- The four bytes `quantize` writes for pixel `i`: the rounded channels of
the nearest final centroid, and the original alpha byte. -/
theorem quantize_getD (data : List ℕ) (k i : ℕ)
    (h4 : data.length % 4 = 0) (hi : i < data.length / 4) :
    (quantize data k).getD (4 * i) 0
        = toU8 (rround (((final_centroids data k).getD (recolor_index data k i) default).1))
    ∧ (quantize data k).getD (4 * i + 1) 0
        = toU8 (rround (((final_centroids data k).getD (recolor_index data k i) default).2.1))
    ∧ (quantize data k).getD (4 * i + 2) 0
        = toU8 (rround (((final_centroids data k).getD (recolor_index data k i) default).2.2))
    ∧ (quantize data k).getD (4 * i + 3) 0 = data.getD (4 * i + 3) 0 := by
  have h0 : 4 * i < data.length := by omega
  have h1 : 4 * i + 1 < data.length := by omega
  have h2 : 4 * i + 2 < data.length := by omega
  have h3 : 4 * i + 3 < data.length := by omega
  simp only [quantize, recolor_index]
  refine ⟨?_, ?_, ?_, ?_⟩
  · rw [getD_range_map _ h0, if_neg (by omega), show 4 * i / 4 = i by omega,
      if_pos (by omega : 4 * i % 4 = 0)]
  · rw [getD_range_map _ h1, if_neg (by omega), show (4 * i + 1) / 4 = i by omega,
      if_neg (by omega), if_pos (by omega : (4 * i + 1) % 4 = 1)]
  · rw [getD_range_map _ h2, if_neg (by omega), show (4 * i + 2) / 4 = i by omega,
      if_neg (by omega), if_neg (by omega)]
  · rw [getD_range_map _ h3, if_pos (by omega : (4 * i + 3) % 4 = 3)]

/-! ### C8: the initializer at `k = 0` -/

/-- Counterexample for C8: for `k = 0` and a non-empty sample the initializer
does *not* return the empty centroid set (the first centroid is pushed before
the `for _ in 1..k` loop runs). -/
theorem initialize_centroids_k0_counterexample :
    initialize_centroids_deterministic [((1 : ℚ), (2 : ℚ), (3 : ℚ))] 0 ≠ [] := by
  decide

/-- C8 (amended): for `k = 0` and a non-empty sample of `N` points, the
centroid initializer returns exactly one centroid: the sample point at index
`⌊N / 4⌋`. -/
theorem initialize_centroids_k0 (pixels : List Pt) (h : pixels ≠ []) :
    initialize_centroids_deterministic pixels 0
      = [pixels.getD (pixels.length / 4) default] := by
  unfold initialize_centroids_deterministic
  rw [if_neg (by simp [List.isEmpty_iff, h])]
  rfl

/-- Witness for C8's amended statement at a concrete one-point sample. -/
theorem initialize_centroids_k0_witness :
    initialize_centroids_deterministic [((1 : ℚ), (2 : ℚ), (3 : ℚ))] 0
      = [[((1 : ℚ), (2 : ℚ), (3 : ℚ))].getD ([((1 : ℚ), (2 : ℚ), (3 : ℚ))].length / 4) default] :=
  initialize_centroids_k0 [((1 : ℚ), (2 : ℚ), (3 : ℚ))] (by simp)

/-! ### C6: centroid-count and empty-cluster invariants of the refinement -/

/-- C6: a refinement iteration maps `k` centroids to `k` centroids, the whole
bounded refinement loop preserves the count, and a cluster to which zero
sample points are assigned keeps its previous centroid value unchanged (over
`ℚ` no division by the empty cluster's size is ever performed, so no `NaN`
can arise, and no reseeding happens). -/
theorem kmeans_centroid_invariants (sample cs : List Pt) (k fuel : ℕ)
    (hlen : cs.length = k) :
    (kmeans_step sample cs k).length = k
    ∧ (kmeans_iterate sample k fuel cs).length = k
    ∧ ∀ i, i < k → kmeans_cluster sample cs i = [] →
        (kmeans_step sample cs k).getD i default = cs.getD i default := by
  refine ⟨kmeans_step_length sample cs k, kmeans_iterate_length sample k fuel cs hlen, ?_⟩
  intro i hik hemp
  simp only [kmeans_step]
  rw [getD_range_map _ hik, hemp]
  simp

/-- Witness for C6: one sample point, two centroids; cluster 1 is empty and
its centroid `(9, 8, 7)` survives the step unchanged. -/
theorem kmeans_centroid_invariants_witness :
    (kmeans_step [((1 : ℚ), (2 : ℚ), (3 : ℚ))]
        [((1 : ℚ), (2 : ℚ), (3 : ℚ)), ((9 : ℚ), (8 : ℚ), (7 : ℚ))] 2).length = 2
    ∧ (kmeans_iterate [((1 : ℚ), (2 : ℚ), (3 : ℚ))] 2 20
        [((1 : ℚ), (2 : ℚ), (3 : ℚ)), ((9 : ℚ), (8 : ℚ), (7 : ℚ))]).length = 2
    ∧ (kmeans_step [((1 : ℚ), (2 : ℚ), (3 : ℚ))]
        [((1 : ℚ), (2 : ℚ), (3 : ℚ)), ((9 : ℚ), (8 : ℚ), (7 : ℚ))] 2).getD 1 default
      = [((1 : ℚ), (2 : ℚ), (3 : ℚ)), ((9 : ℚ), (8 : ℚ), (7 : ℚ))].getD 1 default := by
  have h := kmeans_centroid_invariants [((1 : ℚ), (2 : ℚ), (3 : ℚ))]
    [((1 : ℚ), (2 : ℚ), (3 : ℚ)), ((9 : ℚ), (8 : ℚ), (7 : ℚ))] 2 20 rfl
  refine ⟨h.1, h.2.1, h.2.2 1 (by omega) ?_⟩
  have hfind : find_nearest_centroid ((1 : ℚ), (2 : ℚ), (3 : ℚ))
      [((1 : ℚ), (2 : ℚ), (3 : ℚ)), ((9 : ℚ), (8 : ℚ), (7 : ℚ))] = 0 :=
    find_nearest_two _ _ _ (by norm_num [distSq])
  simp [kmeans_cluster, List.filter_cons, hfind]

/-! ### C7: the recoloring step, fully characterised -/

/-- C7: for every original pixel `i` (not just the sample), the output RGB
bytes are the per-channel rounded values of the final centroid at
`recolor_index` — clamped to `[0, 255]` by the `u8` cast — the alpha byte is
the input alpha unchanged, and `recolor_index` is the nearest final centroid
under the Euclidean metric (squared distances compare identically), with ties
broken by the lowest index: no earlier centroid is as close. -/
theorem quantize_recolor_spec (data : List ℕ) (k i : ℕ)
    (h4 : data.length % 4 = 0) (hi : i < data.length / 4) (hk : 1 ≤ k) :
    ((quantize data k).getD (4 * i) 0
        = toU8 (rround (((final_centroids data k).getD (recolor_index data k i) default).1))
      ∧ (quantize data k).getD (4 * i + 1) 0
        = toU8 (rround (((final_centroids data k).getD (recolor_index data k i) default).2.1))
      ∧ (quantize data k).getD (4 * i + 2) 0
        = toU8 (rround (((final_centroids data k).getD (recolor_index data k i) default).2.2))
      ∧ (quantize data k).getD (4 * i + 3) 0 = data.getD (4 * i + 3) 0)
    ∧ recolor_index data k i < (final_centroids data k).length
    ∧ (∀ u, u < (final_centroids data k).length →
        distSq ((extract_pixels data).getD i default)
            ((final_centroids data k).getD (recolor_index data k i) default)
          ≤ distSq ((extract_pixels data).getD i default)
            ((final_centroids data k).getD u default))
    ∧ (∀ u, u < recolor_index data k i →
        distSq ((extract_pixels data).getD i default)
            ((final_centroids data k).getD (recolor_index data k i) default)
          < distSq ((extract_pixels data).getD i default)
            ((final_centroids data k).getD u default)) := by
  have hn : data.length / 4 ≠ 0 := by omega
  have hlen := final_centroids_length data k hk hn
  have hcs : final_centroids data k ≠ [] := by
    intro hemp
    rw [hemp] at hlen
    simp at hlen
    omega
  obtain ⟨c, cs', hcons⟩ := List.exists_cons_of_ne_nil hcs
  have hspec := find_nearest_centroid_spec ((extract_pixels data).getD i default) c cs'
  refine ⟨quantize_getD data k i h4 hi, ?_, ?_, ?_⟩
  · unfold recolor_index
    rw [hcons]
    exact hspec.1
  · unfold recolor_index
    rw [hcons]
    exact hspec.2.1
  · unfold recolor_index
    rw [hcons]
    exact hspec.2.2

/-- Witness for C7 on the one-pixel buffer `[10, 20, 30, 40]` with `k = 1`. -/
theorem quantize_recolor_spec_witness :
    ((quantize [10, 20, 30, 40] 1).getD (4 * 0) 0
        = toU8 (rround (((final_centroids [10, 20, 30, 40] 1).getD
            (recolor_index [10, 20, 30, 40] 1 0) default).1))
      ∧ (quantize [10, 20, 30, 40] 1).getD (4 * 0 + 1) 0
        = toU8 (rround (((final_centroids [10, 20, 30, 40] 1).getD
            (recolor_index [10, 20, 30, 40] 1 0) default).2.1))
      ∧ (quantize [10, 20, 30, 40] 1).getD (4 * 0 + 2) 0
        = toU8 (rround (((final_centroids [10, 20, 30, 40] 1).getD
            (recolor_index [10, 20, 30, 40] 1 0) default).2.2))
      ∧ (quantize [10, 20, 30, 40] 1).getD (4 * 0 + 3) 0 = [10, 20, 30, 40].getD (4 * 0 + 3) 0)
    ∧ recolor_index [10, 20, 30, 40] 1 0 < (final_centroids [10, 20, 30, 40] 1).length
    ∧ (∀ u, u < (final_centroids [10, 20, 30, 40] 1).length →
        distSq ((extract_pixels [10, 20, 30, 40]).getD 0 default)
            ((final_centroids [10, 20, 30, 40] 1).getD (recolor_index [10, 20, 30, 40] 1 0) default)
          ≤ distSq ((extract_pixels [10, 20, 30, 40]).getD 0 default)
            ((final_centroids [10, 20, 30, 40] 1).getD u default))
    ∧ (∀ u, u < recolor_index [10, 20, 30, 40] 1 0 →
        distSq ((extract_pixels [10, 20, 30, 40]).getD 0 default)
            ((final_centroids [10, 20, 30, 40] 1).getD (recolor_index [10, 20, 30, 40] 1 0) default)
          < distSq ((extract_pixels [10, 20, 30, 40]).getD 0 default)
            ((final_centroids [10, 20, 30, 40] 1).getD u default)) :=
  quantize_recolor_spec [10, 20, 30, 40] 1 0 (by decide) (by decide) (by decide)

/-! ### C2: at most `k` distinct output colors -/

theorem toFinset_card_map_le {α β : Type} [DecidableEq α] [DecidableEq β]
    (l : List α) (F : α → β) :
    (l.map F).toFinset.card ≤ l.toFinset.card := by
  have himg : (l.map F).toFinset = l.toFinset.image F := by
    ext b
    simp
  rw [himg]
  exact Finset.card_image_le

/-- C2: the set of distinct RGB triples in `quantize`'s output (alpha ignored)
has at most `k` elements, and no more than the number of non-empty clusters
(final centroids nearest to at least one pixel). -/
theorem quantize_distinct_colors (data : List ℕ) (k : ℕ)
    (hk : 1 ≤ k) (h4 : data.length % 4 = 0) :
    (output_triples (quantize data k) (data.length / 4)).toFinset.card ≤ k
    ∧ (output_triples (quantize data k) (data.length / 4)).toFinset.card
        ≤ non_empty_cluster_count data k := by
  by_cases hn : data.length / 4 = 0
  · constructor
    · rw [hn]
      simp [output_triples]
    · rw [hn]
      simp [output_triples, non_empty_cluster_count, hn]
  · have hmap : output_triples (quantize data k) (data.length / 4)
        = ((List.range (data.length / 4)).map fun i => recolor_index data k i).map
            (fun j => (toU8 (rround (((final_centroids data k).getD j default).1)),
              toU8 (rround (((final_centroids data k).getD j default).2.1)),
              toU8 (rround (((final_centroids data k).getD j default).2.2)))) := by
      rw [List.map_map]
      unfold output_triples
      apply List.map_congr_left
      intro i hi
      rw [List.mem_range] at hi
      have h := quantize_getD data k i h4 hi
      simp only [Function.comp]
      rw [h.1, h.2.1, h.2.2.1]
    have hcount : non_empty_cluster_count data k
        = ((List.range (data.length / 4)).map fun i => recolor_index data k i).toFinset.card := rfl
    constructor
    · rw [hmap]
      calc (((List.range (data.length / 4)).map fun i => recolor_index data k i).map _).toFinset.card
          ≤ ((List.range (data.length / 4)).map fun i => recolor_index data k i).toFinset.card :=
            toFinset_card_map_le _ _
      _ ≤ (Finset.range k).card := by
            apply Finset.card_le_card
            intro j hj
            rw [List.mem_toFinset, List.mem_map] at hj
            obtain ⟨i, _, rfl⟩ := hj
            rw [Finset.mem_range]
            have hlen := final_centroids_length data k hk hn
            have hcs : final_centroids data k ≠ [] := by
              intro hemp
              rw [hemp] at hlen
              simp at hlen
              omega
            have hb := find_nearest_lt ((extract_pixels data).getD i default) _ hcs
            rw [hlen] at hb
            exact hb
      _ = k := Finset.card_range k
    · rw [hmap, hcount]
      exact toFinset_card_map_le _ _

/-- Witness for C2 on the one-pixel buffer `[10, 20, 30, 40]` with `k = 1`. -/
theorem quantize_distinct_colors_witness :
    (output_triples (quantize [10, 20, 30, 40] 1) ([10, 20, 30, 40].length / 4)).toFinset.card ≤ 1
    ∧ (output_triples (quantize [10, 20, 30, 40] 1) ([10, 20, 30, 40].length / 4)).toFinset.card
        ≤ non_empty_cluster_count [10, 20, 30, 40] 1 :=
  quantize_distinct_colors [10, 20, 30, 40] 1 (by decide) (by decide)

/-! ### C1: determinism of the whole pipeline -/

/-- C1: `quantize` is deterministic: two calls with identical buffer, and
identical `k` produce identical output, byte for byte.  The embedded pipeline
— extraction, sampling, initialization, refinement, recoloring — is a pure
function of `(data, k)`: no stage consults any randomness or external state. -/
theorem quantize_deterministic (data1 data2 : List ℕ) (k1 k2 : ℕ)
    (hdata : data1 = data2) (hkk : k1 = k2) :
    quantize data1 k1 = quantize data2 k2 := by
  subst hdata
  subst hkk
  rfl

/-- Witness for C1 at a concrete call pair. -/
theorem quantize_deterministic_witness :
    quantize [9, 9, 9, 1, 3, 3, 3, 1] 2 = quantize [9, 9, 9, 1, 3, 3, 3, 1] 2 :=
  quantize_deterministic [9, 9, 9, 1, 3, 3, 3, 1] [9, 9, 9, 1, 3, 3, 3, 1] 2 2 rfl rfl

/-! ### C5: the source has no mode argument — only the thresholded variant -/

theorem edge_detection_length (data : List ℕ) (w h : ℕ) :
    (edge_detection data w h).length = data.length := by
  simp [edge_detection, blur_length]

/-- Counterexample for C5: the source's `edge_detection` takes no mode
argument and is not the continuous-magnitude variant: on the uniform 5×5
image with alpha `7`, the alpha byte of interior pixel `(2, 2)` (index 51) is
forced to `255`, while the spec's continuous-magnitude mode preserves the
original `7` — the two outputs differ. -/
theorem edge_detection_mode_counterexample :
    edge_detection (uniform_image 5 5 128 7) 5 5
      ≠ edge_detect_continuous (uniform_image 5 5 128 7) 5 5
    ∧ (edge_detection (uniform_image 5 5 128 7) 5 5).getD 51 0 = 255
    ∧ (edge_detect_continuous (uniform_image 5 5 128 7) 5 5).getD 51 0 = 7 := by
  have h1 : (edge_detection (uniform_image 5 5 128 7) 5 5).getD 51 0 = 255 := by decide
  have h2 : (edge_detect_continuous (uniform_image 5 5 128 7) 5 5).getD 51 0 = 7 := by decide
  refine ⟨?_, h1, h2⟩
  intro heq
  rw [heq, h2] at h1
  omega

/-- C5 (amended): the source's `edge_detection` implements only the
binary-threshold mode: every byte it emits is `0` or `255` (continuous
magnitudes are never written, and no mode argument exists to request them). -/
theorem edge_detection_binary_only (data : List ℕ) (w h : ℕ) :
    ∀ b ∈ edge_detection data w h, b = 0 ∨ b = 255 := by
  intro b hb
  unfold edge_detection at hb
  rw [List.mem_map] at hb
  obtain ⟨idx, _, hfb⟩ := hb
  subst hfb
  dsimp only
  split
  · split
    · right; rfl
    · split
      · right; rfl
      · left; rfl
  · left; rfl

/-- Witness for C5's amended statement: a concrete output byte is `0` or `255`. -/
theorem edge_detection_binary_only_witness :
    (edge_detection (uniform_image 5 5 128 255) 5 5).getD 51 0 = 0
    ∨ (edge_detection (uniform_image 5 5 128 255) 5 5).getD 51 0 = 255 := by
  have hlen : 51 < (edge_detection (uniform_image 5 5 128 255) 5 5).length := by
    rw [edge_detection_length, uniform_image_length]
    omega
  have hmem : (edge_detection (uniform_image 5 5 128 255) 5 5).getD 51 0
      ∈ edge_detection (uniform_image 5 5 128 255) 5 5 := by
    rw [List.getD_eq_getElem?_getD, List.getElem?_eq_getElem hlen]
    simp only [Option.getD_some]
    exact List.getElem_mem hlen
  exact edge_detection_binary_only (uniform_image 5 5 128 255) 5 5 _ hmem
